import Mathlib

/-!
Verification development for the bus-layout-builder repository.

The repository is a TypeScript seat-map editor.  The definitions below are a
shallow embedding of its core logic:

* the JS Map holding the seat-to-person Assignment Ledger is embedded as an
  insertion-ordered association list (a JS Map never holds a duplicate key,
  which appears below as the representation invariant nodupKeys);
* the drag-and-drop handlers (handleDragEnd and onSeatAssignment in the
  BusConfigurator component) become the step function stepL on ledger
  operations;
* the seat-numbering computation (seatNumberMap in BusLayout.tsx) becomes
  seatNumberMap below, iterating the same slot sequence with the same
  running counter;
* the people auto-assignment (autoAssignPeople) and the CSV import handler
  (handleFileUpload in the PeopleManager component) are embedded with an
  explicit model of the engine sort used by Array.prototype.sort.
-/

namespace BusModel

/-- Entry lookup of a JS Map modelled as an association list:
returns the value at the first (hence, under nodupKeys, only) matching key. -/
def mget : List (String × String) → String → Option String
  | [], _ => none
  | e :: rest, k => if e.1 = k then some e.2 else mget rest k

/-- JS Map.set: replace the value at an existing key in place (keeping its
position) or append a new entry at the end, as a JS Map does. -/
def mset : List (String × String) → String → String → List (String × String)
  | [], k, v => [(k, v)]
  | e :: rest, k, v => if e.1 = k then (k, v) :: rest else e :: mset rest k v

/-- JS Map.delete: remove the (first) entry with the given key. -/
def mdel : List (String × String) → String → List (String × String)
  | [], _ => []
  | e :: rest, k => if e.1 = k then rest else e :: mdel rest k

/-- Effect of the dedupe loop in handleDragEnd (part_002, lines 654-657):
iterating the entries and deleting every entry whose value is the given
person id keeps exactly the entries with a different value. -/
def removeVal : List (String × String) → String → List (String × String)
  | [], _ => []
  | e :: rest, pid => if e.2 = pid then removeVal rest pid else e :: removeVal rest pid

/-- Keys of the association list. -/
def keys (m : List (String × String)) : List String := m.map Prod.fst

/-- Representation invariant of a JS Map: no duplicate keys. -/
def nodupKeys (m : List (String × String)) : Prop := (keys m).Nodup

/-- Uniqueness invariant of the Assignment Ledger: no two distinct seats are
mapped to the same person id. -/
def Inj (m : List (String × String)) : Prop :=
  ∀ s1 s2 p, mget m s1 = some p → mget m s2 = some p → s1 = s2

theorem mget_eq_none_of_not_mem_keys {m : List (String × String)} {k : String}
    (h : k ∉ keys m) : mget m k = none := by
  induction m with
  | nil => rfl
  | cons e rest ih =>
    simp only [keys, List.map_cons, List.mem_cons, not_or] at h
    have hne : ¬ e.1 = k := fun he => h.1 he.symm
    simp only [mget, if_neg hne]
    exact ih h.2

theorem mget_mset (m : List (String × String)) (k v x : String) :
    mget (mset m k v) x = if x = k then some v else mget m x := by
  induction m with
  | nil =>
    by_cases hx : x = k
    · simp [mset, mget, hx]
    · have hkx : ¬ k = x := fun h => hx h.symm
      simp [mset, mget, hx, hkx]
  | cons e rest ih =>
    by_cases he : e.1 = k
    · by_cases hx : x = k
      · simp [mset, mget, he, hx]
      · have hkx : ¬ k = x := fun h => hx h.symm
        have hex : ¬ e.1 = x := fun h => hkx (he ▸ h)
        simp [mset, mget, he, hx, hkx, hex]
    · by_cases hex : e.1 = x
      · have hx : ¬ x = k := fun h => he (hex.trans h)
        simp [mset, mget, he, hex, hx]
      · simp [mset, mget, he, hex, ih]

theorem mget_mdel {m : List (String × String)} (hm : nodupKeys m) (k x : String) :
    mget (mdel m k) x = if x = k then none else mget m x := by
  induction m with
  | nil => simp [mdel, mget]
  | cons e rest ih =>
    simp only [nodupKeys, keys, List.map_cons, List.nodup_cons] at hm
    by_cases he : e.1 = k
    · by_cases hx : x = k
      · simp only [mdel, if_pos he, if_pos hx]
        exact mget_eq_none_of_not_mem_keys (by rw [hx, ← he]; exact hm.1)
      · have hex : ¬ e.1 = x := fun h => hx ((h.symm.trans he))
        have hkx : ¬ k = x := fun h => hx h.symm
        simp [mdel, mget, he, hx, hex, hkx]
    · by_cases hex : e.1 = x
      · have hx : ¬ x = k := fun h => he (hex.trans h)
        simp [mdel, mget, he, hex, hx]
      · simp only [mdel, if_neg he, mget, if_neg hex]
        exact ih hm.2

theorem keys_removeVal_sublist (m : List (String × String)) (pid : String) :
    (keys (removeVal m pid)).Sublist (keys m) := by
  induction m with
  | nil => simp [removeVal, keys]
  | cons e rest ih =>
    by_cases he : e.2 = pid
    · simp only [removeVal, if_pos he, keys, List.map_cons]
      exact ih.trans (List.sublist_cons_self _ _)
    · simp only [removeVal, if_neg he, keys, List.map_cons]
      exact List.Sublist.cons₂ e.1 ih

theorem mget_removeVal {m : List (String × String)} (hm : nodupKeys m)
    (pid x : String) :
    mget (removeVal m pid) x =
      match mget m x with
      | some v => if v = pid then none else some v
      | none => none := by
  induction m with
  | nil => simp [removeVal, mget]
  | cons e rest ih =>
    simp only [nodupKeys, keys, List.map_cons, List.nodup_cons] at hm
    by_cases he : e.2 = pid
    · by_cases hx : e.1 = x
      · simp only [removeVal, if_pos he, mget, if_pos hx, he]
        have hnk : x ∉ keys (removeVal rest pid) := by
          intro hmem
          exact (hx ▸ hm.1) ((keys_removeVal_sublist rest pid).mem hmem)
        simp [mget_eq_none_of_not_mem_keys hnk]
      · simp only [removeVal, if_pos he, mget, if_neg hx]
        exact ih hm.2
    · by_cases hx : e.1 = x
      · simp [removeVal, mget, he, hx]
      · simp only [removeVal, if_neg he, mget, if_neg hx]
        exact ih hm.2

theorem keys_mset_mem {m : List (String × String)} {k v x : String}
    (h : x ∈ keys (mset m k v)) : x ∈ keys m ∨ x = k := by
  induction m with
  | nil => simpa [mset, keys] using h
  | cons e rest ih =>
    by_cases he : e.1 = k
    · simp only [mset, if_pos he, keys, List.map_cons, List.mem_cons] at h ⊢
      rcases h with h | h
      · exact Or.inr h
      · exact Or.inl (Or.inr h)
    · simp only [mset, if_neg he, keys, List.map_cons, List.mem_cons] at h ⊢
      rcases h with h | h
      · exact Or.inl (Or.inl h)
      · rcases ih h with h2 | h2
        · exact Or.inl (Or.inr h2)
        · exact Or.inr h2

theorem nodupKeys_mset {m : List (String × String)} (hm : nodupKeys m)
    (k v : String) : nodupKeys (mset m k v) := by
  induction m with
  | nil => simp [mset, nodupKeys, keys]
  | cons e rest ih =>
    simp only [nodupKeys, keys, List.map_cons, List.nodup_cons] at hm
    by_cases he : e.1 = k
    · simp only [mset, if_pos he, nodupKeys, keys, List.map_cons, List.nodup_cons]
      exact ⟨he ▸ hm.1, hm.2⟩
    · simp only [mset, if_neg he, nodupKeys, keys, List.map_cons, List.nodup_cons]
      refine ⟨fun hmem => ?_, ih hm.2⟩
      rcases keys_mset_mem hmem with h | h
      · exact hm.1 h
      · exact he h

theorem mdel_sublist (m : List (String × String)) (k : String) :
    (mdel m k).Sublist m := by
  induction m with
  | nil => simp [mdel]
  | cons e rest ih =>
    by_cases he : e.1 = k
    · simp only [mdel, if_pos he]
      exact List.sublist_cons_self e rest
    · simpa [mdel, he] using List.Sublist.cons₂ e ih

theorem nodupKeys_mdel {m : List (String × String)} (hm : nodupKeys m)
    (k : String) : nodupKeys (mdel m k) :=
  List.Nodup.sublist ((mdel_sublist m k).map Prod.fst) hm

theorem nodupKeys_removeVal {m : List (String × String)} (hm : nodupKeys m)
    (pid : String) : nodupKeys (removeVal m pid) :=
  List.Nodup.sublist (keys_removeVal_sublist m pid) hm

theorem mem_mset {m : List (String × String)} {k v : String}
    {e : String × String} (h : e ∈ mset m k v) : e ∈ m ∨ e = (k, v) := by
  induction m with
  | nil => simpa [mset] using h
  | cons e0 rest ih =>
    by_cases he : e0.1 = k
    · simp only [mset, if_pos he, List.mem_cons] at h ⊢
      rcases h with h | h
      · exact Or.inr h
      · exact Or.inl (Or.inr h)
    · simp only [mset, if_neg he, List.mem_cons] at h ⊢
      rcases h with h | h
      · exact Or.inl (Or.inl h)
      · rcases ih h with h2 | h2
        · exact Or.inl (Or.inr h2)
        · exact Or.inr h2

theorem mem_mdel {m : List (String × String)} {k : String}
    {e : String × String} (h : e ∈ mdel m k) : e ∈ m :=
  (mdel_sublist m k).mem h

theorem mem_removeVal {m : List (String × String)} {pid : String}
    {e : String × String} (h : e ∈ removeVal m pid) : e ∈ m := by
  induction m with
  | nil => exact absurd h (by simp [removeVal])
  | cons e0 rest ih =>
    by_cases he : e0.2 = pid
    · simp only [removeVal, if_pos he] at h
      exact List.mem_cons_of_mem _ (ih h)
    · simp only [removeVal, if_neg he, List.mem_cons] at h
      rcases h with h | h
      · exact h ▸ List.mem_cons_self _ _
      · exact List.mem_cons_of_mem _ (ih h)

/-- Person record of the PeopleManager component (part_004): id, name and an
optional birth-date string. -/
structure Person where
  id : String
  name : String
  birthDate : Option String
deriving DecidableEq

/-- Configuration State of the BusConfigurator component: deck geometry,
special-seat markers, empty spaces, manual seat-number overrides, roster and
the Assignment Ledger.  Fields are the union of the BusConfig interface of
the configurator (part_002) and the row-marker fields consumed by
BusLayout.tsx (entranceRows, tableRows, upperDeckEntranceRows). -/
structure BusState where
  mainDeckRows : Nat
  upperDeckRows : Nat
  hasUpperDeck : Bool
  lastRowSeats : Nat
  entranceRows : List Nat
  tableRows : List Nat
  upperDeckEntranceRows : List Nat
  tourGuideSeats : List String
  emptySpaces : List String
  seatNumbers : List (String × String)
  people : List Person
  seatAssignments : List (String × String)
deriving DecidableEq

/-- Column letter of a seat index, as String.fromCharCode(65 + seatIndex). -/
def seatLetter (i : Nat) : String := String.mk [Char.ofNat (65 + i)]

theorem toNat_ofNat_valid {n : Nat} (hv : n.isValidChar) : (Char.ofNat n).toNat = n := by
  simp [Char.ofNat, Char.ofNatAux, hv, Char.toNat, UInt32.toNat, BitVec.toNat_ofNatLt]

theorem toNat_ofNat_invalid {n : Nat} (hv : ¬ n.isValidChar) : (Char.ofNat n).toNat = 0 := by
  simp [Char.ofNat, hv, Char.toNat, UInt32.toNat, BitVec.toNat_ofNatLt]

theorem seatLetter_eq_iff (i j : Nat) (hj : j < 26) : seatLetter i = seatLetter j ↔ i = j := by
  constructor
  · intro h
    have hc : Char.ofNat (65 + i) = Char.ofNat (65 + j) := by
      have := congrArg String.data h
      simpa [seatLetter] using this
    have hjv : (65 + j).isValidChar := by
      constructor
      omega
    have hnt := congrArg Char.toNat hc
    rw [toNat_ofNat_valid hjv] at hnt
    by_cases hv : (65 + i).isValidChar
    · rw [toNat_ofNat_valid hv] at hnt; omega
    · rw [toNat_ofNat_invalid hv] at hnt; omega
  · intro h; rw [h]

/-- Seat ids of one main-deck row in the order the numbering loop of
seatNumberMap (BusLayout.tsx, lines 280-305) visits them: a table row
contributes nothing, an entrance row skips the C and D placeholders, the
last row has lastRowSeats columns and every other row has 4. -/
def rowSeatIds (st : BusState) (row : Nat) : List String :=
  if row ∈ st.tableRows then []
  else
    (List.range (if row = st.mainDeckRows then st.lastRowSeats else 4)).filterMap fun i =>
      if row ∈ st.entranceRows ∧ (seatLetter i = "C" ∨ seatLetter i = "D") then none
      else some (toString row ++ seatLetter i)

/-- Seat ids of one upper-deck row in the order the numbering loop of
seatNumberMap (BusLayout.tsx, lines 308-327) visits them. -/
def upperRowSeatIds (st : BusState) (row : Nat) : List String :=
  (List.range 4).filterMap fun i =>
    if row ∈ st.upperDeckEntranceRows ∧ (seatLetter i = "C" ∨ seatLetter i = "D") then none
    else some ("U" ++ toString row ++ seatLetter i)

/-- All candidate seat slots in numbering order: main-deck rows ascending,
then the upper deck when present. -/
def deckSlots (st : BusState) : List String :=
  ((List.range' 1 st.mainDeckRows).flatMap (rowSeatIds st)) ++
    (if st.hasUpperDeck then (List.range' 1 st.upperDeckRows).flatMap (upperRowSeatIds st)
     else [])

/-- Running-counter loop of seatNumberMap: a seat in EmptySpaces is skipped
without incrementing, any other seat increments the counter and is mapped to
the string of the new counter value. -/
def numFold (empties : List String) : List String → Nat → List (String × String)
  | [], _ => []
  | sid :: rest, c =>
    if sid ∈ empties then numFold empties rest c
    else (sid, toString (c + 1)) :: numFold empties rest (c + 1)

/-- The seatNumberMap computation of BusLayout.tsx (lines 275-330). -/
def seatNumberMap (st : BusState) : List (String × String) :=
  numFold st.emptySpaces (deckSlots st) 0

/-- Seat ids for which renderMainDeck (BusLayout.tsx, lines 332-415) renders a
Seat component in the given row: none in a table row; in an entrance row the
slots at seat indices 2 and 3 render the entrance gap and null instead of a
seat. -/
def renderedRowSeatIds (st : BusState) (row : Nat) : List String :=
  if row ∈ st.tableRows then []
  else
    (List.range (if row = st.mainDeckRows then st.lastRowSeats else 4)).filterMap fun i =>
      if row ∈ st.entranceRows ∧ (i = 2 ∨ i = 3) then none
      else some (toString row ++ seatLetter i)

/-- Numeric test of the Seat component (BusLayout.tsx, line 58), the regex
test of one or more digits on a possibly absent override. -/
def isNumericStr (v : Option String) : Bool :=
  match v with
  | none => false
  | some s => !s.data.isEmpty && s.data.all Char.isDigit

/-- Display resolution of the Seat component (BusLayout.tsx, lines 59-61):
the override only when it is numeric, the computed label otherwise. -/
def displayResolved (customNumber : Option String) (displayLabel : String) : String :=
  if isNumericStr customNumber then customNumber.getD displayLabel else displayLabel

/-- Displayed label of a seat: display resolution applied to the override and
the computed sequential number, the latter defaulted to the empty string when
the seat has no computed number (the seatNumber ?? "" of the renderer). -/
def seatDisplay (st : BusState) (sid : String) : String :=
  displayResolved (mget st.seatNumbers sid) ((mget (seatNumberMap st) sid).getD "")

theorem numFold_snd (empties : List String) (l : List String) (c : Nat) :
    (numFold empties l c).map Prod.snd =
      (List.range' (c + 1) (numFold empties l c).length).map toString := by
  induction l generalizing c with
  | nil => simp [numFold]
  | cons sid rest ih =>
    by_cases hs : sid ∈ empties
    · simp only [numFold, if_pos hs]
      exact ih c
    · simp only [numFold, if_neg hs, List.map_cons, List.length_cons, List.range'_succ]
      rw [ih (c + 1)]

theorem mem_numFold_not_empty {empties : List String} {l : List String} {c : Nat}
    {e : String × String} (h : e ∈ numFold empties l c) : e.1 ∉ empties := by
  induction l generalizing c with
  | nil => simp [numFold] at h
  | cons sid rest ih =>
    by_cases hs : sid ∈ empties
    · rw [numFold, if_pos hs] at h
      exact ih h
    · rw [numFold, if_neg hs] at h
      rcases List.mem_cons.mp h with h | h
      · rw [h]; exact hs
      · exact ih h

theorem seatNumberMap_empty_none (st : BusState) (sid : String)
    (h : sid ∈ st.emptySpaces) : mget (seatNumberMap st) sid = none := by
  apply mget_eq_none_of_not_mem_keys
  intro hmem
  rcases List.mem_map.mp hmem with ⟨e, he, hfst⟩
  exact mem_numFold_not_empty he (hfst ▸ h)

/-- Configuration of the first numbering example: two main-deck rows, four
seats in the last row, no upper deck, the seat 1C marked as an empty space. -/
def cfgC2 : BusState :=
  { mainDeckRows := 2, upperDeckRows := 3, hasUpperDeck := false, lastRowSeats := 4,
    entranceRows := [], tableRows := [], upperDeckEntranceRows := [],
    tourGuideSeats := [], emptySpaces := ["1C"], seatNumbers := [],
    people := [], seatAssignments := [] }

/-- Configuration of the entrance-row example: entrance row at main-deck
row 1, otherwise as cfgC2 with no empty spaces. -/
def cfgC5 : BusState := { cfgC2 with entranceRows := [1], emptySpaces := [] }

/-- C2: the seat numbering visits main-deck rows ascending (then the upper
deck), with one running counter started at 0 that skips empty spaces without
incrementing and stamps every other seat with the incremented value; on the
configuration with 2 rows, lastRowSeats 4, no upper deck and empty space 1C
it yields exactly 1A=1, 1B=2, 1D=3, 2A=4, 2B=5, 2C=6, 2D=7.  The second
conjunct states the counter discipline in general: the assigned numbers of
any configuration are exactly the strings of 1, 2, ..., n in order. -/
theorem seat_numbering_example_and_dense :
    seatNumberMap cfgC2 =
      [("1A", "1"), ("1B", "2"), ("1D", "3"), ("2A", "4"), ("2B", "5"),
        ("2C", "6"), ("2D", "7")] ∧
    ∀ st : BusState, (seatNumberMap st).map Prod.snd =
      (List.range' 1 (seatNumberMap st).length).map toString := by
  constructor
  · decide
  · intro st
    exact numFold_snd st.emptySpaces (deckSlots st) 0

/-- C5: rendering applies the same entrance rule as numbering — for every
configuration and row, the seats rendered by renderMainDeck are exactly the
seats the numbering loop visits; and on the entrance-row example only 1A and
1B receive numbers 1 and 2, row 2 continuing from 3. -/
theorem entrance_row_rule_consistent :
    (∀ (st : BusState) (row : Nat), renderedRowSeatIds st row = rowSeatIds st row) ∧
    seatNumberMap cfgC5 =
      [("1A", "1"), ("1B", "2"), ("2A", "3"), ("2B", "4"), ("2C", "5"), ("2D", "6")] ∧
    renderedRowSeatIds cfgC5 1 = ["1A", "1B"] := by
  refine ⟨?_, by decide, by decide⟩
  intro st row
  unfold renderedRowSeatIds rowSeatIds
  by_cases ht : row ∈ st.tableRows
  · simp [ht]
  · simp only [if_neg ht]
    congr 1
    funext i
    by_cases he : row ∈ st.entranceRows
    · have h2 : seatLetter i = "C" ↔ i = 2 := by
        rw [show ("C" : String) = seatLetter 2 from rfl]
        exact seatLetter_eq_iff i 2 (by omega)
      have h3 : seatLetter i = "D" ↔ i = 3 := by
        rw [show ("D" : String) = seatLetter 3 from rfl]
        exact seatLetter_eq_iff i 3 (by omega)
      simp [he, h2, h3]
    · simp [he]

/-- Configuration with a non-numeric manual override on seat 1A. -/
def cfgC7 : BusState :=
  { mainDeckRows := 1, upperDeckRows := 3, hasUpperDeck := false, lastRowSeats := 4,
    entranceRows := [], tableRows := [], upperDeckEntranceRows := [],
    tourGuideSeats := [], emptySpaces := [], seatNumbers := [("1A", "Alice")],
    people := [], seatAssignments := [] }

/-- Configuration with a numeric manual override on seat 1A. -/
def cfgC7num : BusState := { cfgC7 with seatNumbers := [("1A", "12")] }

/-- C7 counterexample: seat 1A carries the non-numeric override Alice, yet
the displayed label is the computed sequential number 1, not the override —
refuting the claim that a present override always overrides the display. -/
theorem display_override_counterexample :
    mget cfgC7.seatNumbers "1A" = some "Alice" ∧
    seatDisplay cfgC7 "1A" = "1" ∧ ("1" : String) ≠ "Alice" := by
  decide

/-- C7 amended: a present override determines the displayed label only when
it is numeric-only; a non-numeric override is ignored and the display falls
back to the computed sequential number, as it does when no override is
present. -/
theorem display_override_amended (st : BusState) (sid : String) :
    (∀ s, mget st.seatNumbers sid = some s → isNumericStr (some s) = true →
      seatDisplay st sid = s) ∧
    (∀ s, mget st.seatNumbers sid = some s → isNumericStr (some s) = false →
      seatDisplay st sid = (mget (seatNumberMap st) sid).getD "") ∧
    (mget st.seatNumbers sid = none →
      seatDisplay st sid = (mget (seatNumberMap st) sid).getD "") := by
  refine ⟨?_, ?_, ?_⟩
  · intro s h hn
    simp [seatDisplay, displayResolved, h, hn]
  · intro s h hn
    simp [seatDisplay, displayResolved, h, hn]
  · intro h
    simp [seatDisplay, displayResolved, h, isNumericStr]

/-- Witness for the amended display rule at concrete inputs: the numeric
override 12 is displayed, and the non-numeric override of cfgC7 falls back
to the computed number. -/
theorem display_override_amended_witness :
    seatDisplay cfgC7num "1A" = "12" ∧
    seatDisplay cfgC7 "1A" = (mget (seatNumberMap cfgC7) "1A").getD "" :=
  ⟨(display_override_amended cfgC7num "1A").1 "12" (by decide) (by decide),
   (display_override_amended cfgC7 "1A").2.1 "Alice" (by decide) (by decide)⟩

/-- Ledger operations of the drag-and-drop handlers: assignment of a person
dragged from the people list onto a seat, seat-to-seat move or swap, and
unassignment of a seat (drop back onto the people panel). -/
inductive LOp where
  | assign (toSeat pid : String)
  | moveSwap (fromSeat toSeat : String)
  | unassign (seat : String)
deriving DecidableEq

/-- One drop event acting on the Assignment Ledger, from handleDragEnd
(part_002, lines 616-662) and the identical onSeatAssignment handler
(lines 896-926): a target that is an empty space or a tour-guide seat is
rejected leaving the ledger unchanged; a drag from the people list deletes
every entry holding the dragged person and then assigns the target; a drag
from a seat reads the target occupant, writes the dragged person to the
target, clears the source, and writes the previous occupant back to the
source when it existed and differs from the dragged person.  The dragged
person of a seat-to-seat move is the occupant of the source seat (the drag
payload carries fromSeatId together with that seat's assigned person); a
moveSwap from an unoccupied seat has no drag source and leaves the ledger
unchanged.  All failure modes are validation no-ops: the function is total
and never throws. -/
def stepL (empties tg : List String) (m : List (String × String)) : LOp → List (String × String)
  | .assign toSeat pid =>
    if toSeat ∈ empties ∨ toSeat ∈ tg then m
    else mset (removeVal m pid) toSeat pid
  | .moveSwap fromSeat toSeat =>
    if toSeat ∈ empties ∨ toSeat ∈ tg then m
    else
      match mget m fromSeat with
      | none => m
      | some pid =>
        match mget m toSeat with
        | some q =>
          if q = pid then mdel (mset m toSeat pid) fromSeat
          else mset (mdel (mset m toSeat pid) fromSeat) fromSeat q
        | none => mdel (mset m toSeat pid) fromSeat
  | .unassign seat => mdel m seat

theorem mget_mdel_mset (hm : nodupKeys m) (toSeat fromSeat pid x : String) :
    mget (mdel (mset m toSeat pid) fromSeat) x =
      if x = fromSeat then none
      else if x = toSeat then some pid else mget m x := by
  rw [mget_mdel (nodupKeys_mset hm toSeat pid), mget_mset]

theorem mget_stepL_moveSwap {empties tg : List String} {m : List (String × String)}
    (hm : nodupKeys m) {fromSeat toSeat pid : String}
    (hf : mget m fromSeat = some pid)
    (hv : ¬ (toSeat ∈ empties ∨ toSeat ∈ tg)) (x : String) :
    mget (stepL empties tg m (LOp.moveSwap fromSeat toSeat)) x =
      match mget m toSeat with
      | some q =>
        if q = pid then
          if x = fromSeat then none else if x = toSeat then some pid else mget m x
        else
          if x = fromSeat then some q else if x = toSeat then some pid else mget m x
      | none => if x = fromSeat then none else if x = toSeat then some pid else mget m x := by
  simp only [stepL, if_neg hv, hf]
  cases hq : mget m toSeat with
  | none =>
    simp only [mget_mdel_mset hm]
  | some q =>
    by_cases hqp : q = pid
    · simp only [if_pos hqp, mget_mdel_mset hm]
    · simp only [if_neg hqp, mget_mset, mget_mdel_mset hm]
      by_cases hx : x = fromSeat
      · simp [hx]
      · simp [hx]

theorem mget_removeVal_some {m : List (String × String)} (hm : nodupKeys m)
    {pid x p : String} (h : mget (removeVal m pid) x = some p) :
    mget m x = some p ∧ p ≠ pid := by
  rw [mget_removeVal hm] at h
  cases hv : mget m x with
  | none => rw [hv] at h; simp at h
  | some v =>
    rw [hv] at h
    dsimp only at h
    by_cases hvp : v = pid
    · rw [if_pos hvp] at h; simp at h
    · rw [if_neg hvp] at h
      have hvv : v = p := Option.some.inj h
      exact ⟨hvv ▸ rfl, hvv ▸ hvp⟩

theorem inj_of_swap_shape {m : List (String × String)} (hinj : Inj m)
    (fromSeat toSeat pid : String) (hf : mget m fromSeat = some pid)
    (A : Option String) (hA : ∀ q, A = some q → mget m toSeat = some q)
    (g : String → Option String)
    (hg : ∀ x, g x = if x = fromSeat then A
      else if x = toSeat then some pid else mget m x) :
    ∀ s1 s2 p, g s1 = some p → g s2 = some p → s1 = s2 := by
  have key : ∀ s1 s2 p, s1 = fromSeat → ¬ s2 = fromSeat →
      g s1 = some p → g s2 = some p → s1 = s2 := by
    intro s1 s2 p e1f e2f h1 h2
    rw [hg s1, if_pos e1f] at h1
    rw [hg s2, if_neg e2f] at h2
    have hq : mget m toSeat = some p := hA p h1
    by_cases e2t : s2 = toSeat
    · rw [if_pos e2t] at h2
      have hpp : pid = p := Option.some.inj h2
      have hft : fromSeat = toSeat := hinj fromSeat toSeat pid hf (hpp ▸ hq)
      rw [e1f, e2t, hft]
    · rw [if_neg e2t] at h2
      exact absurd (hinj s2 toSeat p h2 hq) e2t
  intro s1 s2 p h1 h2
  by_cases e1f : s1 = fromSeat
  · by_cases e2f : s2 = fromSeat
    · rw [e1f, e2f]
    · exact key s1 s2 p e1f e2f h1 h2
  · by_cases e2f : s2 = fromSeat
    · exact (key s2 s1 p e2f e1f h2 h1).symm
    · rw [hg s1, if_neg e1f] at h1
      rw [hg s2, if_neg e2f] at h2
      by_cases e1t : s1 = toSeat
      · by_cases e2t : s2 = toSeat
        · rw [e1t, e2t]
        · rw [if_pos e1t] at h1
          rw [if_neg e2t] at h2
          have hpp : pid = p := Option.some.inj h1
          exact absurd (hinj s2 fromSeat p h2 (hpp ▸ hf)) e2f
      · by_cases e2t : s2 = toSeat
        · rw [if_neg e1t] at h1
          rw [if_pos e2t] at h2
          have hpp : pid = p := Option.some.inj h2
          exact absurd (hinj s1 fromSeat p h1 (hpp ▸ hf)) e1f
        · rw [if_neg e1t] at h1
          rw [if_neg e2t] at h2
          exact hinj s1 s2 p h1 h2

theorem stepL_preserves (empties tg : List String) {m : List (String × String)}
    (hm : nodupKeys m) (hinj : Inj m) (op : LOp) :
    nodupKeys (stepL empties tg m op) ∧ Inj (stepL empties tg m op) := by
  cases op with
  | assign toSeat pid =>
    by_cases hv : toSeat ∈ empties ∨ toSeat ∈ tg
    · simp only [stepL, if_pos hv]; exact ⟨hm, hinj⟩
    · simp only [stepL, if_neg hv]
      refine ⟨nodupKeys_mset (nodupKeys_removeVal hm pid) _ _, ?_⟩
      intro s1 s2 p h1 h2
      rw [mget_mset] at h1 h2
      by_cases h1t : s1 = toSeat
      · by_cases h2t : s2 = toSeat
        · rw [h1t, h2t]
        · rw [if_pos h1t] at h1
          rw [if_neg h2t] at h2
          have hpp : pid = p := Option.some.inj h1
          exact absurd (hpp ▸ (mget_removeVal_some hm h2).2) (by simp)
      · rw [if_neg h1t] at h1
        by_cases h2t : s2 = toSeat
        · rw [if_pos h2t] at h2
          have hpp : pid = p := Option.some.inj h2
          exact absurd (hpp ▸ (mget_removeVal_some hm h1).2) (by simp)
        · rw [if_neg h2t] at h2
          exact hinj s1 s2 p (mget_removeVal_some hm h1).1 (mget_removeVal_some hm h2).1
  | moveSwap fromSeat toSeat =>
    by_cases hv : toSeat ∈ empties ∨ toSeat ∈ tg
    · simp only [stepL, if_pos hv]; exact ⟨hm, hinj⟩
    · cases hf : mget m fromSeat with
      | none => simp only [stepL, if_neg hv, hf]; exact ⟨hm, hinj⟩
      | some pid =>
        have hchar := fun x => mget_stepL_moveSwap hm hf hv x
        constructor
        · simp only [stepL, if_neg hv, hf]
          cases hq : mget m toSeat with
          | none => exact nodupKeys_mdel (nodupKeys_mset hm _ _) _
          | some q =>
            by_cases hqp : q = pid
            · simp only [if_pos hqp]
              exact nodupKeys_mdel (nodupKeys_mset hm _ _) _
            · simp only [if_neg hqp]
              exact nodupKeys_mset (nodupKeys_mdel (nodupKeys_mset hm _ _) _) _ _
        · cases hq : mget m toSeat with
          | none =>
            refine inj_of_swap_shape hinj fromSeat toSeat pid hf none
              (by intro q h; simp at h) _ ?_
            intro x
            rw [hchar x, hq]
          | some q =>
            by_cases hqp : q = pid
            · refine inj_of_swap_shape hinj fromSeat toSeat pid hf none
                (by intro q2 h; simp at h) _ ?_
              intro x
              rw [hchar x, hq]
              simp [hqp]
            · refine inj_of_swap_shape hinj fromSeat toSeat pid hf (some q)
                (by intro q2 h; rw [← Option.some.inj h]; exact hq) _ ?_
              intro x
              rw [hchar x, hq]
              simp [hqp]
  | unassign seat =>
    refine ⟨nodupKeys_mdel hm seat, ?_⟩
    intro s1 s2 p h1 h2
    simp only [stepL] at h1 h2
    rw [mget_mdel hm] at h1 h2
    by_cases h1s : s1 = seat
    · rw [if_pos h1s] at h1; simp at h1
    · rw [if_neg h1s] at h1
      by_cases h2s : s2 = seat
      · rw [if_pos h2s] at h2; simp at h2
      · rw [if_neg h2s] at h2
        exact hinj s1 s2 p h1 h2

theorem stepL_foldl_preserves (empties tg : List String) (ops : List LOp) :
    ∀ m : List (String × String), nodupKeys m → Inj m →
      nodupKeys (ops.foldl (stepL empties tg) m) ∧ Inj (ops.foldl (stepL empties tg) m) := by
  induction ops with
  | nil => exact fun m hm hinj => ⟨hm, hinj⟩
  | cons op rest ih =>
    intro m hm hinj
    have h := stepL_preserves empties tg hm hinj op
    exact ih _ h.1 h.2

/-- C1: starting from any ledger in which each person occupies at most one
seat (and which, being a JS Map, has no duplicate seat key), every sequence
of ledger operations — assign from the people list, seat-to-seat move or
swap, unassign — leaves a ledger that never maps two distinct seats to the
same person id; since every prefix of a sequence is itself a sequence, the
invariant holds after every operation. -/
theorem ledger_uniqueness_invariant (empties tg : List String)
    (m : List (String × String)) (hm : nodupKeys m) (hinj : Inj m)
    (ops : List LOp) :
    Inj (ops.foldl (stepL empties tg) m) :=
  (stepL_foldl_preserves empties tg ops m hm hinj).2

/-- Witness: the uniqueness invariant applied to the empty ledger and a
concrete operation sequence that assigns two people, swaps them and
unassigns one. -/
theorem ledger_uniqueness_invariant_witness :
    Inj ([LOp.assign "1A" "p1", LOp.assign "1B" "p2",
          LOp.moveSwap "1A" "1B", LOp.unassign "1B"].foldl (stepL [] []) []) :=
  ledger_uniqueness_invariant [] [] [] (by unfold nodupKeys keys; decide)
    (fun s1 s2 p h1 _ => absurd h1 (by simp [mget]))
    [LOp.assign "1A" "p1", LOp.assign "1B" "p2",
     LOp.moveSwap "1A" "1B", LOp.unassign "1B"]

/-- C3: when seat A holds P, a distinct seat B holds a distinct person Q, and
B is neither empty nor reserved, the seat-to-seat drop from A onto B swaps
the two occupants and leaves every other seat unchanged. -/
theorem moveSwap_swaps (empties tg : List String) (m : List (String × String))
    (hm : nodupKeys m) (A B P Q : String)
    (hA : mget m A = some P) (hB : mget m B = some Q)
    (hAB : A ≠ B) (hPQ : P ≠ Q) (hBe : B ∉ empties) (hBt : B ∉ tg) :
    mget (stepL empties tg m (LOp.moveSwap A B)) A = some Q ∧
    mget (stepL empties tg m (LOp.moveSwap A B)) B = some P ∧
    ∀ s, s ≠ A → s ≠ B → mget (stepL empties tg m (LOp.moveSwap A B)) s = mget m s := by
  have hv : ¬ (B ∈ empties ∨ B ∈ tg) := by simp [hBe, hBt]
  have hchar := fun x => mget_stepL_moveSwap hm hA hv x
  have hQP : ¬ Q = P := fun h => hPQ h.symm
  refine ⟨?_, ?_, ?_⟩
  · rw [hchar A, hB]
    simp [hQP]
  · rw [hchar B, hB]
    have hBA : ¬ B = A := fun h => hAB h.symm
    simp [hQP, hBA]
  · intro s hsA hsB
    rw [hchar s, hB]
    simp [hQP, hsA, hsB]

/-- Witness: the swap theorem at a concrete two-entry ledger, including the
untouched third seat 2A. -/
theorem moveSwap_swaps_witness :
    mget (stepL [] [] [("1A", "p"), ("1B", "q")] (LOp.moveSwap "1A" "1B")) "1A" = some "q" ∧
    mget (stepL [] [] [("1A", "p"), ("1B", "q")] (LOp.moveSwap "1A" "1B")) "1B" = some "p" ∧
    mget (stepL [] [] [("1A", "p"), ("1B", "q")] (LOp.moveSwap "1A" "1B")) "2A" =
      mget [("1A", "p"), ("1B", "q")] "2A" := by
  have h := moveSwap_swaps [] [] [("1A", "p"), ("1B", "q")] (by unfold nodupKeys keys; decide)
    "1A" "1B" "p" "q" (by decide) (by decide) (by decide) (by decide)
    (by decide) (by decide)
  exact ⟨h.1, h.2.1, h.2.2 "2A" (by decide) (by decide)⟩

/-- C4: a drop whose target seat is an empty space or a reserved (tour-guide)
seat is rejected by the validation at the top of handleDragEnd: both the
assign-from-list and the seat-to-seat operation return the ledger unchanged,
and, the step function being total, no exception propagates. -/
theorem invalid_target_noop (empties tg : List String) (m : List (String × String))
    (toSeat pid fromSeat : String) (h : toSeat ∈ empties ∨ toSeat ∈ tg) :
    stepL empties tg m (LOp.assign toSeat pid) = m ∧
    stepL empties tg m (LOp.moveSwap fromSeat toSeat) = m := by
  constructor <;> simp [stepL, if_pos h]

/-- Witness: rejection at a concrete ledger, once for an empty-space target
and once for a tour-guide target. -/
theorem invalid_target_noop_witness :
    stepL ["1C"] ["1A"] [("1B", "p")] (LOp.assign "1C" "q") = [("1B", "p")] ∧
    stepL ["1C"] ["1A"] [("1B", "p")] (LOp.moveSwap "1B" "1A") = [("1B", "p")] :=
  ⟨(invalid_target_noop ["1C"] ["1A"] [("1B", "p")] "1C" "q" "9Z" (Or.inl (by decide))).1,
   (invalid_target_noop ["1C"] ["1A"] [("1B", "p")] "1A" "q" "1B" (Or.inr (by decide))).2⟩

/-- C10: dropping the occupant of seat S back onto S itself (fromSeatId and
toSeatId both S, S neither empty nor reserved) removes the entry for S — the
target write is immediately undone by the source delete and the previous
occupant equals the dragged person, so no write-back happens.  The operation
is not a no-op: the entry for S changes from the person to absent, while all
other seats keep their assignments. -/
theorem self_drop_unassigns (empties tg : List String) (m : List (String × String))
    (hm : nodupKeys m) (S P : String) (hS : mget m S = some P)
    (hSe : S ∉ empties) (hSt : S ∉ tg) :
    mget (stepL empties tg m (LOp.moveSwap S S)) S = none ∧
    mget (stepL empties tg m (LOp.moveSwap S S)) S ≠ mget m S ∧
    ∀ s, s ≠ S → mget (stepL empties tg m (LOp.moveSwap S S)) s = mget m s := by
  have hv : ¬ (S ∈ empties ∨ S ∈ tg) := by simp [hSe, hSt]
  have hchar := fun x => mget_stepL_moveSwap hm hS hv x
  have hnone : mget (stepL empties tg m (LOp.moveSwap S S)) S = none := by
    rw [hchar S, hS]
    simp
  refine ⟨hnone, ?_, ?_⟩
  · rw [hnone, hS]
    simp
  · intro s hs
    rw [hchar s, hS]
    simp [hs]

/-- Witness: the self-drop theorem at a concrete one-entry ledger, with the
unaffected seat 1B checked. -/
theorem self_drop_unassigns_witness :
    mget (stepL [] [] [("1A", "p")] (LOp.moveSwap "1A" "1A")) "1A" = none ∧
    mget (stepL [] [] [("1A", "p")] (LOp.moveSwap "1A" "1A")) "1B" =
      mget [("1A", "p")] "1B" := by
  have h := self_drop_unassigns [] [] [("1A", "p")] (by unfold nodupKeys keys; decide) "1A" "p"
    (by decide) (by decide) (by decide)
  exact ⟨h.1, h.2.2 "1B" (by decide)⟩

/-- Insertion of an element at a given position of a list. -/
def insertAtL {α : Type} (n : Nat) (x : α) (l : List α) : List α :=
  l.take n ++ x :: l.drop n

/-- Binary search for the insertion point of a pivot into the sorted prefix,
exactly the probe sequence of the binary insertion sort that the major JS
engines (V8, JSC, SpiderMonkey after their TimSort adoption) run for the
short arrays this application produces: while the window is nonempty, probe
the middle element, narrowing to the left half when the comparator says the
pivot is smaller and to the right half otherwise.  The fuel argument bounds
the iteration count (the window shrinks at every step, so a fuel of the
initial window width suffices and keeps the recursion structural). -/
def bsearchAux {α : Type} (cmp : α → α → Int) (pivot : α) (l : List α) :
    Nat → Nat → Nat → Nat
  | 0, left, _ => left
  | fuel + 1, left, right =>
    if left < right then
      let mid := (left + right) / 2
      if cmp pivot (l.getD mid pivot) < 0 then bsearchAux cmp pivot l fuel left mid
      else bsearchAux cmp pivot l fuel (mid + 1) right
    else left

/-- Model of Array.prototype.sort with a user comparator: stable binary
insertion sort, inserting each element of the input in turn into the sorted
accumulator at the position the binary search returns.  ECMAScript leaves
the order implementation-defined when the comparator is inconsistent; this
is the behaviour of the engines the application runs on. -/
def jsSortBy {α : Type} (cmp : α → α → Int) (l : List α) : List α :=
  l.foldl (fun acc x =>
    insertAtL (bsearchAux cmp x acc acc.length 0 acc.length) x acc) []

theorem insertAtL_perm {α : Type} (n : Nat) (x : α) (l : List α) :
    (insertAtL n x l).Perm (x :: l) := by
  unfold insertAtL
  calc (l.take n ++ x :: l.drop n).Perm (x :: (l.take n ++ l.drop n)) := List.perm_middle
    _ = x :: l := by rw [List.take_append_drop]

theorem jsSortBy_foldl_perm {α : Type} (cmp : α → α → Int) :
    ∀ (l acc : List α),
      (l.foldl (fun acc x =>
        insertAtL (bsearchAux cmp x acc acc.length 0 acc.length) x acc) acc).Perm
        (acc ++ l) := by
  intro l
  induction l with
  | nil => intro acc; simp
  | cons x rest ih =>
    intro acc
    have h1 := ih (insertAtL (bsearchAux cmp x acc acc.length 0 acc.length) x acc)
    have h2 : (insertAtL (bsearchAux cmp x acc acc.length 0 acc.length) x acc
        ++ rest).Perm ((x :: acc) ++ rest) :=
      List.Perm.append_right rest (insertAtL_perm _ x acc)
    have h3 : ((x :: acc) ++ rest).Perm (acc ++ x :: rest) := List.perm_middle.symm
    exact (h1.trans h2).trans h3

theorem jsSortBy_perm {α : Type} (cmp : α → α → Int) (l : List α) :
    (jsSortBy cmp l).Perm l := by
  have h := jsSortBy_foldl_perm cmp l []
  simpa [jsSortBy] using h

/-- Numeric key of a birth-date string, modelling the external collaborator
new Date(s).getTime(): the decimal number formed by the digits of s, which
for the ISO yyyy-mm-dd strings the application compares is strictly monotone
in chronological order, the only property the comparator uses. -/
def dateKey (s : String) : Int :=
  s.data.foldl (fun acc c => if c.isDigit then acc * 10 + ((c.toNat : Int) - 48) else acc) 0

/-- JS truthiness of an optional string field: absent and empty are falsy. -/
def truthyStr (v : Option String) : Bool :=
  match v with
  | none => false
  | some s => !s.data.isEmpty

/-- Comparator of autoAssignPeople (part_002, lines 378-381) and of the
CSV-import sort: 0 whenever either person lacks a (truthy) birth date, otherwise
the difference of the date keys, oldest smaller. -/
def cmpBirth (a b : Person) : Int :=
  if !truthyStr a.birthDate || !truthyStr b.birthDate then 0
  else dateKey (a.birthDate.getD "") - dateKey (b.birthDate.getD "")

/-- getAvailableSeats (part_002, lines 404-433): all geometric seat ids of
the main deck (last row wider) and, when present, the upper deck, excluding
empty spaces and tour-guide seats.  This enumeration has no entrance or
table handling - the configurator component owning it predates those row
markers. -/
def getAvailableSeats (st : BusState) : List String :=
  ((List.range' 1 st.mainDeckRows).flatMap fun row =>
    (List.range (if row = st.mainDeckRows then st.lastRowSeats else 4)).filterMap fun i =>
      let sid := toString row ++ seatLetter i
      if sid ∈ st.emptySpaces ∨ sid ∈ st.tourGuideSeats then none else some sid) ++
  (if st.hasUpperDeck then
    (List.range' 1 st.upperDeckRows).flatMap fun row =>
      (List.range 4).filterMap fun i =>
        let sid := "U" ++ toString row ++ seatLetter i
        if sid ∈ st.emptySpaces ∨ sid ∈ st.tourGuideSeats then none else some sid
   else [])

/-- autoAssignPeople (part_002, lines 369-388): keep the free seats among the
available ones and the people not yet assigned, sort those people with the
birth comparator, and pair them with the free seats in enumeration order
until either list is exhausted. -/
def autoAssignPeople (st : BusState) : BusState :=
  let availableSeats := getAvailableSeats st
  let freeSeats := availableSeats.filter fun s => (mget st.seatAssignments s).isNone
  let assignedIds := st.seatAssignments.map Prod.snd
  let unassignedPeople := st.people.filter fun p => !(assignedIds.contains p.id)
  let sortedPeople := jsSortBy cmpBirth unassignedPeople
  let newMap := (freeSeats.zip sortedPeople).foldl
    (fun m2 pr => mset m2 pr.1 pr.2.id) st.seatAssignments
  { st with seatAssignments := newMap }

/-- Roster for the C6 counterexample: a 2000-01-01 person, then a person
without a birth date, then a 1990-01-01 person; bus with exactly the two
free seats 1A and 1B. -/
def stC6 : BusState :=
  { mainDeckRows := 1, upperDeckRows := 3, hasUpperDeck := false, lastRowSeats := 4,
    entranceRows := [], tableRows := [], upperDeckEntranceRows := [],
    tourGuideSeats := [], emptySpaces := ["1C", "1D"], seatNumbers := [],
    people := [⟨"p1", "Ana", some "2000-01-01"⟩, ⟨"p2", "Ben", none⟩,
               ⟨"p3", "Cara", some "1990-01-01"⟩],
    seatAssignments := [] }

/-- Roster of the claim's own example: 2000-01-01, 1990-01-01, then absent. -/
def stC6b : BusState :=
  { stC6 with people := [⟨"p1", "Ana", some "2000-01-01"⟩,
                         ⟨"p2", "Ben", some "1990-01-01"⟩, ⟨"p3", "Cara", none⟩] }

/-- C6 counterexample: with candidates in input order 2000-01-01, absent,
1990-01-01 and two free seats, autoAssignPeople seats the 2000-born person
first and the birth-less person second, leaving the strictly older 1990-born
person unassigned — the candidates are not ordered by birth date ascending.
The birth-less middle person compares equal to both neighbours, so the sort
never compares the two dated people and leaves the input order in place. -/
theorem auto_assign_order_counterexample :
    mget (autoAssignPeople stC6).seatAssignments "1A" = some "p1" ∧
    mget (autoAssignPeople stC6).seatAssignments "1B" = some "p2" ∧
    ((autoAssignPeople stC6).seatAssignments.map Prod.snd).contains "p3" = false ∧
    dateKey "1990-01-01" < dateKey "2000-01-01" := by
  decide

/-- C6 amended: autoAssign sorts the unassigned candidates with a comparator
that returns 0 whenever either person lacks a birth date, so people are
ordered oldest-first only as far as the engine sort actually compares dated
pairs; any person without a birth date ties with everyone.  On the claim's
own example — input order 2000-01-01, 1990-01-01, absent with free seats 1A
then 1B — the 1990 person gets 1A, the 2000 person gets 1B and the
birth-less person stays unassigned. -/
theorem auto_assign_amended :
    (mget (autoAssignPeople stC6b).seatAssignments "1A" = some "p2" ∧
     mget (autoAssignPeople stC6b).seatAssignments "1B" = some "p1" ∧
     ((autoAssignPeople stC6b).seatAssignments.map Prod.snd).contains "p3" = false) ∧
    ∀ (a b : Person), cmpBirth ⟨a.id, a.name, none⟩ b = 0 ∧
      cmpBirth a ⟨b.id, b.name, none⟩ = 0 := by
  constructor
  · decide
  · intro a b
    constructor
    · simp [cmpBirth, truthyStr]
    · simp [cmpBirth, truthyStr]

/-- Charwise trim modelling the JS String.trim of the source (leading and
trailing whitespace removed). -/
def trimStr (s : String) : String :=
  String.mk (((s.data.dropWhile Char.isWhitespace).reverse.dropWhile Char.isWhitespace).reverse)

/-- User-facing operations of the configurator: toggling a seat's empty-space
marking (Seat click), adding and removing roster members (PeopleManager),
the three drop outcomes of a drag, and auto-assignment.  Id arguments stand
for the opaque unique ids the source mints with Date.now(). -/
inductive UOp where
  | toggleEmpty (s : String)
  | addPerson (pid name : String)
  | removePerson (pid : String)
  | dragAssign (toSeat pid : String)
  | dragMove (fromSeat toSeat : String)
  | dragUnassign (fromSeat : String)
  | autoAssign
deriving DecidableEq

def UOp.isRemovePerson : UOp → Bool
  | .removePerson _ => true
  | _ => false

/-- Person currently shown on a seat: the assigned person id looked up in the
roster, as the Seat component computes assignedPerson (BusLayout.tsx,
lines 64-67).  Absent both when the seat is unassigned and when the assigned
id no longer matches any roster member. -/
def seatOccupantPerson (st : BusState) (s : String) : Option Person :=
  (mget st.seatAssignments s).bind fun pid => st.people.find? fun p => p.id == pid

/-- One user-facing operation on the Configuration State.  toggleEmpty
follows Seat.handleClick (BusLayout.tsx, lines 90-102), which returns
without toggling while an assignedPerson is found; addPerson and
removePerson follow the PeopleManager (part_004, lines 27-37 and 91-97,
removal not cascading into the ledger); the drag operations follow
handleDragEnd, a drag source existing only for a roster member
(DraggablePerson) or for a seat whose occupant is found in the roster (the
seat draggable is disabled otherwise); autoAssign is autoAssignPeople. -/
def stepU (st : BusState) : UOp → BusState
  | .toggleEmpty s =>
    if (seatOccupantPerson st s).isSome then st
    else if s ∈ st.emptySpaces then { st with emptySpaces := st.emptySpaces.erase s }
    else { st with emptySpaces := st.emptySpaces ++ [s] }
  | .addPerson pid name =>
    if (trimStr name).data.isEmpty then st
    else { st with people := st.people ++ [⟨pid, trimStr name, none⟩] }
  | .removePerson pid =>
    { st with people := st.people.filter fun p => !(p.id == pid) }
  | .dragAssign toSeat pid =>
    if (st.people.any fun p => p.id == pid) then
      let m2 := stepL st.emptySpaces st.tourGuideSeats st.seatAssignments (.assign toSeat pid)
      { st with seatAssignments := m2 }
    else st
  | .dragMove fromSeat toSeat =>
    if (seatOccupantPerson st fromSeat).isSome then
      let m2 := stepL st.emptySpaces st.tourGuideSeats st.seatAssignments (.moveSwap fromSeat toSeat)
      { st with seatAssignments := m2 }
    else st
  | .dragUnassign fromSeat =>
    if (seatOccupantPerson st fromSeat).isSome then
      { st with seatAssignments := mdel st.seatAssignments fromSeat }
    else st
  | .autoAssign => autoAssignPeople st

/-- Every empty-space seat is unassigned. -/
def EmptyUnassigned (st : BusState) : Prop :=
  ∀ s ∈ st.emptySpaces, mget st.seatAssignments s = none

/-- Every ledger entry points at a roster member. -/
def AssignedInRoster (st : BusState) : Prop :=
  ∀ e ∈ st.seatAssignments, ∃ p ∈ st.people, p.id = e.2

/-- Combined state invariant: empty seats unassigned, assigned ids in the
roster, and the ledger a well-formed map. -/
def GoodState (st : BusState) : Prop :=
  EmptyUnassigned st ∧ AssignedInRoster st ∧ nodupKeys st.seatAssignments

theorem mget_some_mem {m : List (String × String)} {k v : String}
    (h : mget m k = some v) : (k, v) ∈ m := by
  induction m with
  | nil => simp [mget] at h
  | cons e rest ih =>
    rw [mget] at h
    by_cases he : e.1 = k
    · rw [if_pos he] at h
      have hv : e.2 = v := Option.some.inj h
      have : (k, v) = e := by rw [← he, ← hv]
      rw [this]
      exact List.mem_cons_self e rest
    · rw [if_neg he] at h
      exact List.mem_cons_of_mem _ (ih h)

theorem mem_getAvailableSeats {st : BusState} {s : String}
    (h : s ∈ getAvailableSeats st) : s ∉ st.emptySpaces ∧ s ∉ st.tourGuideSeats := by
  unfold getAvailableSeats at h
  have core : ∀ (sid : String),
      (if sid ∈ st.emptySpaces ∨ sid ∈ st.tourGuideSeats then none else some sid) = some s →
      s ∉ st.emptySpaces ∧ s ∉ st.tourGuideSeats := by
    intro sid hif
    by_cases hc : sid ∈ st.emptySpaces ∨ sid ∈ st.tourGuideSeats
    · rw [if_pos hc] at hif; simp at hif
    · rw [if_neg hc] at hif
      have : sid = s := Option.some.inj hif
      rw [← this]
      exact not_or.mp hc
  rcases List.mem_append.mp h with h | h
  · rcases List.mem_flatMap.mp h with ⟨row, _, hrow⟩
    rcases List.mem_filterMap.mp hrow with ⟨i, _, hi⟩
    exact core _ hi
  · by_cases hu : st.hasUpperDeck
    · rw [if_pos hu] at h
      rcases List.mem_flatMap.mp h with ⟨row, _, hrow⟩
      rcases List.mem_filterMap.mp hrow with ⟨i, _, hi⟩
      exact core _ hi
    · rw [if_neg hu] at h
      simp at h

theorem foldl_mset_good (people : List Person) (empties : List String) :
    ∀ (pairs : List (String × Person)) (m : List (String × String)),
      (∀ s ∈ empties, mget m s = none) →
      (∀ e ∈ m, ∃ p ∈ people, p.id = e.2) →
      nodupKeys m →
      (∀ pr ∈ pairs, pr.1 ∉ empties ∧ pr.2 ∈ people) →
      (∀ s ∈ empties,
        mget (pairs.foldl (fun acc pr => mset acc pr.1 pr.2.id) m) s = none) ∧
      (∀ e ∈ pairs.foldl (fun acc pr => mset acc pr.1 pr.2.id) m,
        ∃ p ∈ people, p.id = e.2) ∧
      nodupKeys (pairs.foldl (fun acc pr => mset acc pr.1 pr.2.id) m) := by
  intro pairs
  induction pairs with
  | nil => exact fun m h1 h2 h3 _ => ⟨h1, h2, h3⟩
  | cons pr rest ih =>
    intro m h1 h2 h3 h4
    have hpr := h4 pr (List.mem_cons_self pr rest)
    refine ih (mset m pr.1 pr.2.id) ?_ ?_ (nodupKeys_mset h3 _ _) ?_
    · intro s hs
      rw [mget_mset]
      have hne : ¬ s = pr.1 := fun hh => hpr.1 (hh ▸ hs)
      rw [if_neg hne]
      exact h1 s hs
    · intro e he
      rcases mem_mset he with he | he
      · exact h2 e he
      · exact ⟨pr.2, hpr.2, by rw [he]⟩
    · intro pr2 hpr2
      exact h4 pr2 (List.mem_cons_of_mem pr hpr2)

theorem autoAssign_preserves {st : BusState} (hg : GoodState st) :
    GoodState (autoAssignPeople st) := by
  obtain ⟨h1, h2, h3⟩ := hg
  have hpairs : ∀ pr ∈
      (((getAvailableSeats st).filter fun s => (mget st.seatAssignments s).isNone).zip
        (jsSortBy cmpBirth
          (st.people.filter fun p => !((st.seatAssignments.map Prod.snd).contains p.id)))),
      pr.1 ∉ st.emptySpaces ∧ pr.2 ∈ st.people := by
    intro pr hpr
    have hz := List.of_mem_zip hpr
    constructor
    · exact (mem_getAvailableSeats (List.mem_of_mem_filter hz.1)).1
    · exact List.mem_of_mem_filter ((jsSortBy_perm cmpBirth _).subset hz.2)
  have key := foldl_mset_good st.people st.emptySpaces
    (((getAvailableSeats st).filter fun s => (mget st.seatAssignments s).isNone).zip
      (jsSortBy cmpBirth
        (st.people.filter fun p => !((st.seatAssignments.map Prod.snd).contains p.id))))
    st.seatAssignments h1 h2 h3 hpairs
  exact ⟨key.1, key.2.1, key.2.2⟩

theorem stepU_preserves {st : BusState} (hg : GoodState st) (op : UOp)
    (hop : op.isRemovePerson = false) : GoodState (stepU st op) := by
  obtain ⟨h1, h2, h3⟩ := hg
  cases op with
  | toggleEmpty s =>
    by_cases hocc : (seatOccupantPerson st s).isSome
    · simp only [stepU, if_pos hocc]
      exact ⟨h1, h2, h3⟩
    · simp only [stepU, if_neg hocc]
      by_cases hs : s ∈ st.emptySpaces
      · rw [if_pos hs]
        refine ⟨?_, h2, h3⟩
        intro s2 hs2
        exact h1 s2 (List.mem_of_mem_erase hs2)
      · rw [if_neg hs]
        refine ⟨?_, h2, h3⟩
        intro s2 hs2
        rcases List.mem_append.mp hs2 with hs2 | hs2
        · exact h1 s2 hs2
        · have hseq : s2 = s := by simpa using hs2
          rw [hseq]
          cases hmg : mget st.seatAssignments s with
          | none => rfl
          | some pid =>
            exfalso
            apply hocc
            obtain ⟨p, hp, hpid⟩ := h2 (s, pid) (mget_some_mem hmg)
            have hfind : (st.people.find? fun q => q.id == pid).isSome :=
              List.find?_isSome.mpr ⟨p, hp, by simp [hpid]⟩
            rw [seatOccupantPerson, hmg, Option.some_bind]
            exact hfind
  | addPerson pid name =>
    by_cases hn : (trimStr name).data.isEmpty
    · simp only [stepU, if_pos hn]
      exact ⟨h1, h2, h3⟩
    · simp only [stepU, if_neg hn]
      refine ⟨h1, ?_, h3⟩
      intro e he
      obtain ⟨p, hp, hpid⟩ := h2 e he
      exact ⟨p, List.mem_append_left _ hp, hpid⟩
  | removePerson pid => simp [UOp.isRemovePerson] at hop
  | dragAssign toSeat pid =>
    by_cases hany : (st.people.any fun p => p.id == pid) = true
    · simp only [stepU, if_pos hany]
      by_cases hv : toSeat ∈ st.emptySpaces ∨ toSeat ∈ st.tourGuideSeats
      · simp only [stepL, if_pos hv]
        exact ⟨h1, h2, h3⟩
      · simp only [stepL, if_neg hv]
        refine ⟨?_, ?_, nodupKeys_mset (nodupKeys_removeVal h3 _) _ _⟩
        · intro s hs
          rw [mget_mset]
          have hne : ¬ s = toSeat := fun hh => hv (Or.inl (hh ▸ hs))
          rw [if_neg hne, mget_removeVal h3, h1 s hs]
        · intro e he
          rcases mem_mset he with he | he
          · exact h2 e (mem_removeVal he)
          · obtain ⟨p, hp, hpid⟩ := List.any_eq_true.mp hany
            exact ⟨p, hp, by rw [he]; exact beq_iff_eq.mp hpid⟩
    · simp only [stepU, if_neg hany]
      exact ⟨h1, h2, h3⟩
  | dragMove fromSeat toSeat =>
    by_cases hocc : (seatOccupantPerson st fromSeat).isSome
    · simp only [stepU, if_pos hocc]
      by_cases hv : toSeat ∈ st.emptySpaces ∨ toSeat ∈ st.tourGuideSeats
      · simp only [stepL, if_pos hv]
        exact ⟨h1, h2, h3⟩
      · cases hf : mget st.seatAssignments fromSeat with
        | none =>
          simp only [stepL, if_neg hv, hf]
          exact ⟨h1, h2, h3⟩
        | some pid =>
          have hchar := fun x => mget_stepL_moveSwap h3 hf hv x
          have hfrom_ne : fromSeat ∉ st.emptySpaces := by
            intro hmem
            rw [h1 fromSeat hmem] at hf
            exact Option.noConfusion hf
          have hpidR : ∃ p ∈ st.people, p.id = pid :=
            h2 (fromSeat, pid) (mget_some_mem hf)
          refine ⟨?_, ?_, ?_⟩
          · intro s hs
            have hsf : ¬ s = fromSeat := fun hh => hfrom_ne (hh ▸ hs)
            have hst : ¬ s = toSeat := fun hh => hv (Or.inl (hh ▸ hs))
            rw [hchar s]
            cases hq : mget st.seatAssignments toSeat with
            | none =>
              dsimp only
              rw [if_neg hsf, if_neg hst]
              exact h1 s hs
            | some q =>
              dsimp only
              by_cases hqp : q = pid
              · rw [if_pos hqp, if_neg hsf, if_neg hst]
                exact h1 s hs
              · rw [if_neg hqp, if_neg hsf, if_neg hst]
                exact h1 s hs
          · intro e he
            simp only [stepL, if_neg hv, hf] at he
            cases hq : mget st.seatAssignments toSeat with
            | none =>
              rw [hq] at he
              dsimp only at he
              rcases mem_mset (mem_mdel he) with he2 | he2
              · exact h2 e he2
              · obtain ⟨p, hp, hid⟩ := hpidR
                exact ⟨p, hp, by rw [he2]; exact hid⟩
            | some q =>
              rw [hq] at he
              dsimp only at he
              by_cases hqp : q = pid
              · rw [if_pos hqp] at he
                rcases mem_mset (mem_mdel he) with he2 | he2
                · exact h2 e he2
                · obtain ⟨p, hp, hid⟩ := hpidR
                  exact ⟨p, hp, by rw [he2]; exact hid⟩
              · rw [if_neg hqp] at he
                rcases mem_mset he with he2 | he2
                · rcases mem_mset (mem_mdel he2) with he3 | he3
                  · exact h2 e he3
                  · obtain ⟨p, hp, hid⟩ := hpidR
                    exact ⟨p, hp, by rw [he3]; exact hid⟩
                · obtain ⟨p, hp, hid⟩ := h2 (toSeat, q) (mget_some_mem hq)
                  exact ⟨p, hp, by rw [he2]; exact hid⟩
          · simp only [stepL, if_neg hv, hf]
            cases hq : mget st.seatAssignments toSeat with
            | none =>
              dsimp only
              exact nodupKeys_mdel (nodupKeys_mset h3 _ _) _
            | some q =>
              dsimp only
              by_cases hqp : q = pid
              · rw [if_pos hqp]
                exact nodupKeys_mdel (nodupKeys_mset h3 _ _) _
              · rw [if_neg hqp]
                exact nodupKeys_mset (nodupKeys_mdel (nodupKeys_mset h3 _ _) _) _ _
    · simp only [stepU, if_neg hocc]
      exact ⟨h1, h2, h3⟩
  | dragUnassign fromSeat =>
    by_cases hocc : (seatOccupantPerson st fromSeat).isSome
    · simp only [stepU, if_pos hocc]
      refine ⟨?_, ?_, nodupKeys_mdel h3 _⟩
      · intro s hs
        rw [mget_mdel h3]
        by_cases hsf : s = fromSeat
        · rw [if_pos hsf]
        · rw [if_neg hsf]
          exact h1 s hs
      · intro e he
        exact h2 e (mem_mdel he)
    · simp only [stepU, if_neg hocc]
      exact ⟨h1, h2, h3⟩
  | autoAssign => exact autoAssign_preserves ⟨h1, h2, h3⟩

theorem stepU_foldl_preserves (ops : List UOp) :
    ∀ st : BusState, GoodState st → (∀ op ∈ ops, op.isRemovePerson = false) →
      GoodState (ops.foldl stepU st) := by
  induction ops with
  | nil => exact fun st hg _ => hg
  | cons op rest ih =>
    intro st hg hops
    exact ih (stepU st op)
      (stepU_preserves hg op (hops op (List.mem_cons_self op rest)))
      (fun op2 h2 => hops op2 (List.mem_cons_of_mem op h2))

/-- Initial Configuration State of the configurator (part_002, lines
288-300): 12 main-deck rows, 3 upper-deck rows disabled, 5 seats in the last
row, everything else empty. -/
def initialState : BusState :=
  { mainDeckRows := 12, upperDeckRows := 3, hasUpperDeck := false, lastRowSeats := 5,
    entranceRows := [], tableRows := [], upperDeckEntranceRows := [],
    tourGuideSeats := [], emptySpaces := [], seatNumbers := [],
    people := [], seatAssignments := [] }

/-- Operation sequence breaking the empty-space exclusion: add a person,
seat them on 1A, remove them from the roster (no cascade into the ledger),
then click 1A — the occupied-seat guard looks the assigned id up in the
roster, finds nobody, and lets the toggle through. -/
def c8ops : List UOp :=
  [UOp.addPerson "p" "Ann", UOp.dragAssign "1A" "p",
   UOp.removePerson "p", UOp.toggleEmpty "1A"]

/-- C8 counterexample: from the initial state, the four user-facing
operations of c8ops reach a state in which 1A is an empty space and still
holds the ledger entry of the removed person — an empty-space seat with an
entry in the seat-assignment ledger. -/
theorem empty_space_exclusion_counterexample :
    "1A" ∈ (c8ops.foldl stepU initialState).emptySpaces ∧
    mget (c8ops.foldl stepU initialState).seatAssignments "1A" = some "p" := by
  decide

/-- C8 amended: in every state reachable by empty-space toggles, roster
additions and all assignment operations (drag assign, move or swap, drop
back to the people list, auto-assign) — every user-facing operation except
roster removal — from a state satisfying the invariant (empty seats
unassigned, assigned ids present in the roster, ledger a well-formed map),
a seat in EmptySpaces has no entry in the seat-numbering map and no entry in
the seat-assignment ledger.  Removing an assigned person from the roster
breaks the toggle guard and with it the invariant, as the counterexample
shows. -/
theorem empty_space_exclusion_amended (st : BusState) (ops : List UOp)
    (hg : GoodState st) (hops : ∀ op ∈ ops, op.isRemovePerson = false) :
    ∀ s ∈ (ops.foldl stepU st).emptySpaces,
      mget (ops.foldl stepU st).seatAssignments s = none ∧
      mget (seatNumberMap (ops.foldl stepU st)) s = none := by
  have hgood := stepU_foldl_preserves ops st hg hops
  intro s hs
  exact ⟨hgood.1 s hs, seatNumberMap_empty_none _ s hs⟩

/-- Witness: the amended exclusion applied to the initial state and a
concrete removal-free sequence that seats a person and marks 1B empty. -/
theorem empty_space_exclusion_amended_witness :
    mget (([UOp.addPerson "q" "Bo", UOp.dragAssign "1A" "q",
            UOp.toggleEmpty "1B"].foldl stepU initialState)).seatAssignments "1B" = none ∧
    mget (seatNumberMap ([UOp.addPerson "q" "Bo", UOp.dragAssign "1A" "q",
            UOp.toggleEmpty "1B"].foldl stepU initialState)) "1B" = none :=
  empty_space_exclusion_amended initialState
    [UOp.addPerson "q" "Bo", UOp.dragAssign "1A" "q", UOp.toggleEmpty "1B"]
    (by refine ⟨?_, ?_, ?_⟩ <;> first
      | exact fun s hs => absurd hs (by simp [initialState])
      | exact fun e he => absurd he (by simp [initialState])
      | exact List.nodup_nil)
    (by decide) "1B" (by decide)

/-- First truthy value of a JS or-chain over possibly absent string fields:
absent and empty-string values fall through to the next alias. -/
def firstTruthy : List (Option String) → Option String
  | [] => none
  | v :: rest =>
    match v with
    | some s => if s.data.isEmpty then firstTruthy rest else some s
    | none => firstTruthy rest

/-- Name resolution of handleFileUpload (part_004, line 56): the or-chain
over the recognized name header aliases. -/
def rawNameOf (row : List (String × String)) : Option String :=
  firstTruthy [mget row "name", mget row "Name", mget row "Name and Lastname",
               mget row "Full Name", mget row "Full name"]

/-- Birth-date resolution of handleFileUpload (part_004, line 57). -/
def rawBirthOf (row : List (String × String)) : Option String :=
  firstTruthy [mget row "birth", mget row "Birth", mget row "Date of Birth",
               mget row "DOB", mget row "Birthdate", mget row "Birth Date"]

/-- Treatment of one parsed record (part_004, lines 59-67): a person is
produced exactly when the resolved raw name is truthy with a non-empty trim;
the person carries the trimmed name and the trimmed birth field when one
resolved.  The row index stands in for the opaque unique id minted with
Date.now() plus Math.random(). -/
def importRow (idx : Nat) (row : List (String × String)) : Option Person :=
  match rawNameOf row with
  | some s =>
    if (trimStr s).data.isEmpty then none
    else some ⟨toString idx, trimStr s, (rawBirthOf row).map trimStr⟩
  | none => none

/-- The complete callback of handleFileUpload (part_004, lines 49-89): fold
over the parsed records pushing one person per usable row, sort the imported
people by the birth comparator, and append them after the existing people
list. -/
def pushImportedFrom (acc : List Person) :
    List (Nat × List (String × String)) → List Person
  | [] => acc
  | pr :: rest =>
    pushImportedFrom
      (match importRow pr.1 pr.2 with
       | some p => acc ++ [p]
       | none => acc) rest

def handleFileUpload (people : List Person) (rows : List (List (String × String))) :
    List Person :=
  people ++ jsSortBy cmpBirth (pushImportedFrom [] rows.enum)

theorem pushImportedFrom_eq_filterMap :
    ∀ (l : List (Nat × List (String × String))) (acc : List Person),
      pushImportedFrom acc l = acc ++ l.filterMap (fun pr => importRow pr.1 pr.2) := by
  intro l
  induction l with
  | nil => intro acc; simp [pushImportedFrom]
  | cons pr rest ih =>
    intro acc
    cases hf : importRow pr.1 pr.2 with
    | none =>
      simp only [pushImportedFrom, hf, List.filterMap_cons]
      exact ih acc
    | some p =>
      simp only [pushImportedFrom, hf, List.filterMap_cons]
      rw [ih (acc ++ [p]), List.append_assoc]
      rfl

/-- C9: bulk import appends to the untouched existing people list exactly one
person per input record whose name resolves through the header aliases to a
non-empty trimmed string (the appended block being the engine sort of those
persons), and a record yields no person exactly when its resolved name is
empty after trimming — such records are dropped silently. -/
theorem import_appends_valid_rows (people : List Person)
    (rows : List (List (String × String))) :
    (handleFileUpload people rows).take people.length = people ∧
    ((handleFileUpload people rows).drop people.length).Perm
      ((rows.enum).filterMap fun pr => importRow pr.1 pr.2) ∧
    ∀ (i : Nat) (row : List (String × String)),
      (importRow i row = none ↔ (trimStr ((rawNameOf row).getD "")).data.isEmpty) := by
  refine ⟨?_, ?_, ?_⟩
  · show (people ++ _).take people.length = people
    exact List.take_left people _
  · show ((people ++ _).drop people.length).Perm _
    rw [List.drop_left people]
    have hfold := pushImportedFrom_eq_filterMap rows.enum []
    rw [List.nil_append] at hfold
    rw [hfold]
    exact jsSortBy_perm cmpBirth _
  · intro i row
    cases hn : rawNameOf row with
    | none =>
      simp [importRow, hn, trimStr]
    | some s =>
      simp only [importRow, hn, Option.getD_some]
      by_cases ht : (trimStr s).data.isEmpty
      · simp [ht]
      · simp [ht]

end BusModel
